import Mathlib

/-!
k8split: splitting a composite YAML file into one file per resource

A shallow embedding of `src/main.go` (the `Run` function of the cobra command)
and of the two standard-library routines it is built on (`bytes.Index` and
`bytes.Split`), followed by theorems about the splitter, the field extraction,
the deduplication and the abort behaviour.

Go strings and `[]byte` values are both byte sequences; they are embedded as
`List UInt8`.  The YAML decoder (`yaml.Unmarshal`) and the file system
(`ioutil.WriteFile`) are parameters of the embedding.
-/

set_option autoImplicit false

namespace K8split

/-! ## Bytes and literals -/

/-- A Go `[]byte` or `string`: a finite sequence of bytes. -/
abbrev Bytes := List UInt8

/-- The bytes of an ASCII string literal of the source. -/
def lit (s : String) : Bytes := s.data.map (fun c => UInt8.ofNat c.toNat)

/-! ## Standard library: `bytes.Index`, `bytes.Contains`, `bytes.Count`, `bytes.Split`, `bytes.Join` -/

/-- Go `bytes.Index(s, sep)`: the index of the first instance of `sep` in `s`,
`none` standing for the result `-1`. -/
def Index : Bytes → Bytes → Option Nat
  | [], sep => if sep <+: [] then some 0 else none
  | c :: cs, sep => if sep <+: c :: cs then some 0 else (Index cs sep).map (· + 1)

/-- Go `bytes.Contains(b, subslice)`, which is `Index(b, subslice) != -1`. -/
def Contains (b subslice : Bytes) : Bool := (Index b subslice).isSome

/-- The loop of Go `bytes.Count` for a non-empty separator: find the first
instance, count it, continue behind it.  The loop runs at most `fuel` times;
`Count` starts it with `len(s)`, which is never exhausted (`Count_eq`). -/
def countLoop (sep : Bytes) : Nat → Bytes → Nat
  | 0, _ => 0
  | fuel + 1, s =>
    match Index s sep with
    | none => 0
    | some i => 1 + countLoop sep fuel (s.drop (i + sep.length))

/-- Go `bytes.Count(s, sep)` for a non-empty `sep`: the number of
non-overlapping instances of `sep` in `s`, found from left to right. -/
def Count (s sep : Bytes) : Nat := countLoop sep s.length s

/-- The loop of Go `genSplit`: at most `n` times, cut the text before the
first instance of `sep` off `s`; what is left is the final element. -/
def genSplitLoop (sep : Bytes) : Nat → Bytes → List Bytes
  | 0, s => [s]
  | n + 1, s =>
    match Index s sep with
    | none => [s]
    | some m => s.take m :: genSplitLoop sep n (s.drop (m + sep.length))

/-- Go `genSplit(s, sep, 0, -1)` for a non-empty `sep` (the `explode` branch
for an empty separator is not part of the embedding; the separator of the
program has at least five bytes, see `separator_ne_nil`):
`n = Count(s, sep) + 1`, capped at `len(s) + 1`, and `n - 1` cuts. -/
def genSplit (s sep : Bytes) : List Bytes :=
  let n := Count s sep + 1
  let n := if n > s.length + 1 then s.length + 1 else n
  genSplitLoop sep (n - 1) s

/-- Go `bytes.Split(s, sep)`, which is `genSplit(s, sep, 0, -1)`. -/
def Split (s sep : Bytes) : List Bytes := genSplit s sep

/-- Go `bytes.Join(s, sep)`: the elements of `s` with `sep` between
consecutive elements. -/
def Join : List Bytes → Bytes → Bytes
  | [], _ => []
  | [a], _ => a
  | a :: b :: rest, sep => a ++ sep ++ Join (b :: rest) sep

/-! ## `Run`, lines 55-66: line break, separator, chunks -/

/-- Lines 55-60 of `src/main.go`: the line break is `"\n"`, and `"\r\n"` when
the input contains `"\r\n"` and `runtime.GOOS` is `"windows"`. -/
def linebreak (goos d : Bytes) : Bytes :=
  let windowsLineEnding := Contains d (lit "\r\n")
  if windowsLineEnding && decide (goos = lit "windows") then lit "\r\n" else lit "\n"

/-- The separator of line 62: `linebreak + "---" + linebreak`. -/
def separator (goos d : Bytes) : Bytes :=
  linebreak goos d ++ lit "---" ++ linebreak goos d

/-- Lines 64-66: when the last element of `parts` is empty, it is cut off.
(`parts` is never empty there, see `Split_ne_nil`, so `parts[len(parts)-1]`
is in range.) -/
def dropTrailingEmpty (parts : List Bytes) : List Bytes :=
  if parts.getLast? = some [] then parts.dropLast else parts

/-- Lines 62-66: the chunks the loop of `Run` ranges over. -/
def chunks (goos d : Bytes) : List Bytes :=
  dropTrailingEmpty (Split d (separator goos d))

/-- Whether lines 64-66 cut the last element off. -/
def droppedTrailing (goos d : Bytes) : Bool :=
  decide ((Split d (separator goos d)).getLast? = some [])

/-! ## Decoded YAML documents -/

/-- The dynamic values `yaml.Unmarshal` (gopkg.in/yaml.v2) stores in an
`interface{}`: `null` is the nil interface, `str` a Go `string`, `seq` a
`[]interface{}` and `map` a `map[interface{}]interface{}`. -/
inductive Value where
  | null : Value
  | bool (b : Bool) : Value
  | int (n : Int) : Value
  | float (bits : Nat) : Value
  | str (s : Bytes) : Value
  | seq (xs : List Value) : Value
  | map (kvs : List (Value × Value)) : Value

/-- The `data` of line 73, a `map[string]interface{}`, as its list of entries. -/
abbrev Data := List (Bytes × Value)

/-- Go `data[key]` on a `map[string]interface{}`: the value stored under
`key`, the nil interface when there is none. -/
def dataAt : Data → Bytes → Value
  | [], _ => Value.null
  | (k, v) :: rest, key => if k = key then v else dataAt rest key

/-- Go `m[key]` on a `map[interface{}]interface{}` for a key of type
`string`: only an entry whose key is that string matches. -/
def mapAt : List (Value × Value) → Bytes → Value
  | [], _ => Value.null
  | (Value.str k, v) :: rest, key => if k = key then v else mapAt rest key
  | _ :: rest, key => mapAt rest key

/-- Go `v.(string)` in its two-value form: `none` is `ok == false`. -/
def assertString : Value → Option Bytes
  | Value.str s => some s
  | _ => none

/-- Go `v.(map[interface{}]interface{})`: `none` is a failed conversion,
on which the one-value form used at lines 89 and 94 panics. -/
def assertMap : Value → Option (List (Value × Value))
  | Value.map kvs => some kvs
  | _ => none

/-! ## `Run`, lines 68-118: the loop over the chunks -/

/-- The messages of the `log.Fatal` calls of the loop.  Lines 91 and 97 print
the same text, so they share `noMetadataName`. -/
inductive Fatal where
  | loadYaml (err : Bytes) : Fatal
  | noKind (i : Nat) : Fatal
  | noMetadataName (i : Nat) : Fatal
  | writeFile (err : Bytes) : Fatal
  deriving DecidableEq

/-- How the process can end before the loop is through: by `log.Fatal`
(message, exit status 1) or by the runtime panic of a failed interface
conversion. -/
inductive Abort where
  | fatal (f : Fatal) : Abort
  | panic : Abort
  deriving DecidableEq

/-- The resource identity of a document: kind, name and namespace. -/
structure ResourceIdentity where
  kind : Bytes
  name : Bytes
  ns : Bytes
  deriving DecidableEq

/-- Line 103: `kind + "__" + name + "__" + ns + ".yaml"`. -/
def OutputFilename (r : ResourceIdentity) : Bytes :=
  r.kind ++ lit "__" ++ r.name ++ lit "__" ++ r.ns ++ lit ".yaml"

/-- What the loop body lets the outside see. -/
inductive Event where
  | logChunks (n : Nat) : Event
  | logSkipDuplicate (name kind ns : Bytes) : Event
  | logWriting (filename : Bytes) : Event
  | wrote (path content : Bytes) : Event
  deriving DecidableEq

/-- The two collaborators of the loop: `yaml.Unmarshal` into an empty
`map[string]interface{}` and `ioutil.WriteFile` on a file system `σ`. -/
structure Env (σ : Type) where
  unmarshal : Bytes → Except Bytes Data
  writeFile : σ → Bytes → Bytes → Except Bytes σ

/-- The state the loop carries: the `created` set of line 68 (its keys; every
stored value is `true`) and the file system. -/
structure State (σ : Type) where
  created : List Bytes
  fs : σ

/-- Lines 73-101: decode chunk `i` and extract its identity.  `ok none` is the
`continue` of line 80 for a document without top-level keys. -/
def identify (unmarshal : Bytes → Except Bytes Data) (i : Nat) (p : Bytes) :
    Except Abort (Option ResourceIdentity) :=
  match unmarshal p with
  | .error err => .error (.fatal (.loadYaml err))
  | .ok data =>
    if data.length = 0 then .ok none
    else
      match assertString (dataAt data (lit "kind")) with
      | none => .error (.fatal (.noKind i))
      | some kind =>
        match assertMap (dataAt data (lit "metadata")) with
        | none => .error .panic
        | some md =>
          match assertString (mapAt md (lit "name")) with
          | none => .error (.fatal (.noMetadataName i))
          | some name =>
            match assertMap (dataAt data (lit "metadata")) with
            | none => .error .panic
            | some md2 =>
              match assertString (mapAt md2 (lit "namespace")) with
              | some ns => .ok (some ⟨kind, name, ns⟩)
              | none =>
                if kind ≠ lit "Namespace" then .error (.fatal (.noMetadataName i))
                else .ok (some ⟨kind, name, name⟩)

/-- Lines 73-117: the loop body for chunk `i` with bytes `p`. -/
def processChunk {σ : Type} (E : Env σ) (outDir : Bytes) (i : Nat) (p : Bytes)
    (st : State σ) : List Event × Except Abort (State σ) :=
  match identify E.unmarshal i p with
  | .error a => ([], .error a)
  | .ok none => ([], .ok st)
  | .ok (some r) =>
    let filename := OutputFilename r
    if filename ∈ st.created then
      ([Event.logSkipDuplicate r.name r.kind r.ns], .ok st)
    else
      match E.writeFile st.fs (outDir ++ lit "/" ++ filename) (p ++ lit "\n") with
      | .error err => ([Event.logWriting filename], .error (.fatal (.writeFile err)))
      | .ok fs2 =>
        ([Event.logWriting filename,
          Event.wrote (outDir ++ lit "/" ++ filename) (p ++ lit "\n")],
         .ok ⟨filename :: st.created, fs2⟩)

/-- Lines 72-118: the loop over the chunks from index `i` on; it stops at the
first chunk that aborts. -/
def loop {σ : Type} (E : Env σ) (outDir : Bytes) :
    Nat → List Bytes → State σ → List Event × Except Abort (State σ)
  | _, [], st => ([], .ok st)
  | i, p :: ps, st =>
    match processChunk E outDir i p st with
    | (ev, .error a) => (ev, .error a)
    | (ev, .ok st2) =>
      let r := loop E outDir (i + 1) ps st2
      (ev ++ r.1, r.2)

/-- Lines 55-118 of `Run`, from the bytes `d` of the input file on. -/
def Run {σ : Type} (E : Env σ) (goos outDir d : Bytes) (fs : σ) :
    List Event × Except Abort (State σ) :=
  let parts := chunks goos d
  let r := loop E outDir 0 parts ⟨[], fs⟩
  (Event.logChunks parts.length :: r.1, r.2)

/-- The files written, in order: path and content of every `WriteFile` that
succeeded. -/
def filesWritten : List Event → List (Bytes × Bytes)
  | [] => []
  | Event.wrote path content :: rest => (path, content) :: filesWritten rest
  | _ :: rest => filesWritten rest

/-- The identity chunk `p` resolves to; `none` for a blank chunk and for one
that aborts. -/
def chunkResource {σ : Type} (E : Env σ) (p : Bytes) : Option ResourceIdentity :=
  match identify E.unmarshal 0 p with
  | .ok r => r
  | .error _ => none

/-- The OutputFilename of chunk `p`, when it has one. -/
def chunkFilename {σ : Type} (E : Env σ) (p : Bytes) : Option Bytes :=
  (chunkResource E p).map OutputFilename

/-- The files a completed run is expected to write, in the words of the
specification: going through the chunks in document order, a non-blank chunk
gives one file, named kind, two underscores, name, two underscores, namespace
and `.yaml`, holding the bytes of the chunk and one line feed, unless its
OutputFilename occurred at an earlier chunk; a blank chunk gives nothing. -/
def expectedFilesFrom {σ : Type} (E : Env σ) (outDir : Bytes) :
    List Bytes → List Bytes → List (Bytes × Bytes)
  | _, [] => []
  | earlier, p :: ps =>
    (match chunkResource E p with
      | none => []
      | some r =>
        let filename := r.kind ++ lit "__" ++ r.name ++ lit "__" ++ r.ns ++ lit ".yaml"
        if filename ∈ earlier.filterMap (chunkFilename E) then []
        else [(outDir ++ lit "/" ++ filename, p ++ lit "\n")])
      ++ expectedFilesFrom E outDir (earlier ++ [p]) ps

/-- The expected files of a whole chunk sequence. -/
def expectedFiles {σ : Type} (E : Env σ) (outDir : Bytes) (parts : List Bytes) :
    List (Bytes × Bytes) :=
  expectedFilesFrom E outDir [] parts

/-- The byte `_`. -/
def underscore : UInt8 := 95

/-- Neither the kind nor the name of `r` contains an underscore. -/
def underscoreFree (r : ResourceIdentity) : Prop :=
  underscore ∉ r.kind ∧ underscore ∉ r.name

/-! ## A concrete environment for examples -/

/-- A file system that records every write and never fails. -/
def recordingWriteFile (fs : List (Bytes × Bytes)) (path content : Bytes) :
    Except Bytes (List (Bytes × Bytes)) :=
  .ok (fs ++ [(path, content)])

/-- A decoder given by a table of documents; any other input is a YAML error. -/
def tableUnmarshal (table : List (Bytes × Data)) (p : Bytes) : Except Bytes Data :=
  match table.lookup p with
  | some data => .ok data
  | none => .error (lit "yaml: cannot decode")

/-- The decoded form of a mapping document with a `kind` and a `metadata`
mapping that holds `name` and `namespace`. -/
def resourceData (kind name ns : Bytes) : Data :=
  [(lit "kind", Value.str kind),
   (lit "metadata",
     Value.map [(Value.str (lit "name"), Value.str name),
                (Value.str (lit "namespace"), Value.str ns)])]

/-- The document `kind: Pod`, name `foo`, namespace `bar`. -/
def podFooBar : Bytes := lit "kind: Pod\nmetadata:\n  name: foo\n  namespace: bar"

/-- A document without `metadata`. -/
def podNoMetadata : Bytes := lit "kind: Pod"

/-- A document whose `metadata` is a string. -/
def podScalarMetadata : Bytes := lit "kind: Pod\nmetadata: web"

/-- A document whose `metadata` mapping has no `name`. -/
def podNoName : Bytes := lit "kind: Pod\nmetadata:\n  namespace: bar"

/-- A Namespace document without `metadata.namespace`. -/
def namespaceDev : Bytes := lit "kind: Namespace\nmetadata:\n  name: dev"

/-- A document of kind `a__b` named `c` in namespace `ns1`. -/
def docKindWithUnderscores : Bytes :=
  lit "kind: a__b\nmetadata:\n  name: c\n  namespace: ns1"

/-- A document of kind `a` named `b__c` in namespace `ns1`. -/
def docNameWithUnderscores : Bytes :=
  lit "kind: a\nmetadata:\n  name: b__c\n  namespace: ns1"

/-- What `yaml.Unmarshal` makes of the example documents. -/
def exampleDocs : List (Bytes × Data) :=
  [(podFooBar, resourceData (lit "Pod") (lit "foo") (lit "bar")),
   (podNoMetadata, [(lit "kind", Value.str (lit "Pod"))]),
   (podScalarMetadata,
     [(lit "kind", Value.str (lit "Pod")), (lit "metadata", Value.str (lit "web"))]),
   (podNoName,
     [(lit "kind", Value.str (lit "Pod")),
      (lit "metadata", Value.map [(Value.str (lit "namespace"), Value.str (lit "bar"))])]),
   (namespaceDev,
     [(lit "kind", Value.str (lit "Namespace")),
      (lit "metadata", Value.map [(Value.str (lit "name"), Value.str (lit "dev"))])]),
   (docKindWithUnderscores, resourceData (lit "a__b") (lit "c") (lit "ns1")),
   (docNameWithUnderscores, resourceData (lit "a") (lit "b__c") (lit "ns1")),
   (lit "", [])]

/-- The example environment: the table decoder and the recording file system. -/
def exampleEnv : Env (List (Bytes × Bytes)) where
  unmarshal := tableUnmarshal exampleDocs
  writeFile := recordingWriteFile

/-! ## Facts about the standard-library routines -/

theorem Index_nil_of_ne_nil (sep : Bytes) (h : sep ≠ []) : Index [] sep = none := by
  cases sep with
  | nil => exact absurd rfl h
  | cons a t => simp [Index]

theorem Index_eq_some (sep : Bytes) :
    ∀ (s : Bytes) (m : Nat), Index s sep = some m →
      s = s.take m ++ sep ++ s.drop (m + sep.length) := by
  intro s
  induction s with
  | nil =>
    intro m h
    unfold Index at h
    split at h
    · rename_i hp
      have : sep = [] := List.prefix_nil.mp hp
      subst this
      simp
    · exact absurd h (by simp)
  | cons c cs ih =>
    intro m h
    unfold Index at h
    split at h
    · rename_i hp
      obtain ⟨t, ht⟩ := hp
      have hm : m = 0 := by simpa using h.symm
      subst hm
      rw [← ht]
      simp
    · cases hi : Index cs sep with
      | none => rw [hi] at h; exact absurd h (by simp)
      | some k =>
        rw [hi] at h
        have hm : m = k + 1 := by simpa using h.symm
        subst hm
        have e := ih k hi
        have e2 : k + 1 + sep.length = (k + sep.length) + 1 := by omega
        rw [e2]
        simp only [List.take_succ_cons, List.drop_succ_cons, List.cons_append]
        exact congrArg (List.cons c) e

theorem Index_add_le (sep : Bytes) :
    ∀ (s : Bytes) (m : Nat), Index s sep = some m → m + sep.length ≤ s.length := by
  intro s
  induction s with
  | nil =>
    intro m h
    unfold Index at h
    split at h
    · rename_i hp
      have hm : m = 0 := by simpa using h.symm
      have := hp.length_le
      omega
    · exact absurd h (by simp)
  | cons c cs ih =>
    intro m h
    unfold Index at h
    split at h
    · rename_i hp
      have hm : m = 0 := by simpa using h.symm
      have := hp.length_le
      omega
    · cases hi : Index cs sep with
      | none => rw [hi] at h; exact absurd h (by simp)
      | some k =>
        rw [hi] at h
        have hm : m = k + 1 := by simpa using h.symm
        have := ih k hi
        simp only [List.length_cons]
        omega

theorem length_drop_lt (sep s : Bytes) (m : Nat) (hsep : sep ≠ [])
    (h : Index s sep = some m) : (s.drop (m + sep.length)).length < s.length := by
  have h1 := Index_add_le sep s m h
  have h2 : 0 < sep.length := List.length_pos.mpr hsep
  simp only [List.length_drop]
  omega

theorem countLoop_le (sep : Bytes) : ∀ (fuel : Nat) (s : Bytes), countLoop sep fuel s ≤ fuel := by
  intro fuel
  induction fuel with
  | zero => intro s; simp [countLoop]
  | succ n ih =>
    intro s
    unfold countLoop
    split
    · omega
    · rename_i i _
      have := ih (s.drop (i + sep.length))
      omega

theorem genSplit_eq (s sep : Bytes) : genSplit s sep = genSplitLoop sep (Count s sep) s := by
  have h := countLoop_le sep s.length s
  unfold genSplit
  simp only [Count] at *
  have : ¬ (countLoop sep s.length s + 1 > s.length + 1) := by omega
  simp [this]

theorem genSplitLoop_ne_nil (sep : Bytes) (n : Nat) (s : Bytes) : genSplitLoop sep n s ≠ [] := by
  cases n with
  | zero => simp [genSplitLoop]
  | succ k =>
    unfold genSplitLoop
    split <;> simp

theorem Split_ne_nil (s sep : Bytes) : Split s sep ≠ [] := by
  unfold Split
  rw [genSplit_eq]
  exact genSplitLoop_ne_nil _ _ _

theorem Join_cons (a : Bytes) (rest : List Bytes) (sep : Bytes) (h : rest ≠ []) :
    Join (a :: rest) sep = a ++ sep ++ Join rest sep := by
  cases rest with
  | nil => exact absurd rfl h
  | cons b t => rfl

theorem Join_genSplitLoop (sep : Bytes) :
    ∀ (n : Nat) (s : Bytes), Join (genSplitLoop sep n s) sep = s := by
  intro n
  induction n with
  | zero => intro s; simp [genSplitLoop, Join]
  | succ k ih =>
    intro s
    unfold genSplitLoop
    split
    · simp [Join]
    · rename_i m hm
      rw [Join_cons _ _ _ (genSplitLoop_ne_nil _ _ _), ih]
      exact (Index_eq_some sep s m hm).symm

theorem Join_Split (s sep : Bytes) : Join (Split s sep) sep = s := by
  unfold Split
  rw [genSplit_eq]
  exact Join_genSplitLoop _ _ _

theorem length_genSplitLoop_countLoop (sep : Bytes) :
    ∀ (fuel : Nat) (s : Bytes),
      (genSplitLoop sep (countLoop sep fuel s) s).length = countLoop sep fuel s + 1 := by
  intro fuel
  induction fuel with
  | zero => intro s; simp [countLoop, genSplitLoop]
  | succ k ih =>
    intro s
    unfold countLoop
    cases hi : Index s sep with
    | none => simp [genSplitLoop]
    | some m =>
      simp only
      rw [Nat.add_comm 1 _]
      unfold genSplitLoop
      simp only [hi, List.length_cons]
      rw [ih]

theorem length_Split (s sep : Bytes) : (Split s sep).length = Count s sep + 1 := by
  unfold Split
  rw [genSplit_eq]
  exact length_genSplitLoop_countLoop _ _ _

theorem countLoop_succ (sep : Bytes) (fuel : Nat) (s : Bytes) :
    countLoop sep (fuel + 1) s =
      match Index s sep with
      | none => 0
      | some i => 1 + countLoop sep fuel (s.drop (i + sep.length)) := rfl

theorem genSplitLoop_succ (sep : Bytes) (n : Nat) (s : Bytes) :
    genSplitLoop sep (n + 1) s =
      match Index s sep with
      | none => [s]
      | some m => s.take m :: genSplitLoop sep n (s.drop (m + sep.length)) := rfl

theorem countLoop_fuel (sep : Bytes) (hsep : sep ≠ []) :
    ∀ (f1 f2 : Nat) (s : Bytes), s.length ≤ f1 → s.length ≤ f2 →
      countLoop sep f1 s = countLoop sep f2 s := by
  intro f1
  induction f1 with
  | zero =>
    intro f2 s h1 _
    have hs : s = [] := List.length_eq_zero.mp (by omega)
    subst hs
    cases f2 <;> simp [countLoop, Index_nil_of_ne_nil sep hsep]
  | succ k ih =>
    intro f2 s h1 h2
    cases f2 with
    | zero =>
      have hs : s = [] := List.length_eq_zero.mp (by omega)
      subst hs
      simp [countLoop, Index_nil_of_ne_nil sep hsep]
    | succ j =>
      unfold countLoop
      cases hi : Index s sep with
      | none => rfl
      | some m =>
        have hlt := length_drop_lt sep s m hsep hi
        simp only
        rw [ih j (s.drop (m + sep.length)) (by omega) (by omega)]

/-- The loop equation of `bytes.Count`: the fuel of `countLoop` is never
exhausted. -/
theorem Count_eq (s sep : Bytes) (hsep : sep ≠ []) :
    Count s sep =
      match Index s sep with
      | none => 0
      | some i => 1 + Count (s.drop (i + sep.length)) sep := by
  unfold Count
  cases hs : s.length with
  | zero =>
    have hs0 : s = [] := List.length_eq_zero.mp hs
    subst hs0
    simp [countLoop, Index_nil_of_ne_nil sep hsep]
  | succ k =>
    rw [countLoop_succ]
    cases hi : Index s sep with
    | none => rfl
    | some m =>
      have hlt := length_drop_lt sep s m hsep hi
      simp only
      rw [countLoop_fuel sep hsep k (s.drop (m + sep.length)).length _ (by omega) (le_refl _)]

/-- The loop equation of `bytes.Split`: cut at the first instance of the
separator and split what follows it. -/
theorem Split_eq (s sep : Bytes) (hsep : sep ≠ []) :
    Split s sep =
      match Index s sep with
      | none => [s]
      | some m => s.take m :: Split (s.drop (m + sep.length)) sep := by
  unfold Split
  rw [genSplit_eq, Count_eq s sep hsep]
  cases hi : Index s sep with
  | none => simp [genSplitLoop]
  | some m =>
    simp only
    rw [genSplit_eq, Nat.add_comm 1 _, genSplitLoop_succ]
    simp only [hi]

theorem Split_of_Index_none (s sep : Bytes) (h : Index s sep = none) : Split s sep = [s] := by
  unfold Split
  rw [genSplit_eq]
  unfold Count
  cases hs : s.length with
  | zero => simp [countLoop, genSplitLoop]
  | succ k => simp [countLoop, genSplitLoop, h]

theorem dropLast_append_of_getLast (parts : List Bytes) (h : parts.getLast? = some []) :
    parts.dropLast ++ [[]] = parts :=
  List.dropLast_append_getLast? [] (by simp [h])

theorem linebreak_cases (goos d : Bytes) :
    linebreak goos d = lit "\n" ∨ linebreak goos d = lit "\r\n" := by
  unfold linebreak
  simp only
  split
  · exact Or.inr rfl
  · exact Or.inl rfl

theorem separator_ne_nil (goos d : Bytes) : separator goos d ≠ [] := by
  unfold separator
  rcases linebreak_cases goos d with h | h <;> rw [h] <;> decide

theorem chunks_of_no_separator (goos d : Bytes) (hd : d ≠ [])
    (h : Contains d (separator goos d) = false) : chunks goos d = [d] := by
  have hi : Index d (separator goos d) = none := by
    simpa [Contains] using h
  unfold chunks dropTrailingEmpty
  rw [Split_of_Index_none d _ hi]
  have : ¬ ([d].getLast? = some []) := by
    simp only [List.getLast?_singleton]
    intro e
    exact hd (Option.some.inj e)
  rw [if_neg this]

theorem getLast_Split_nil (sep : Bytes) (hsep : sep ≠ []) :
    ∀ (n : Nat) (s : Bytes), s.length ≤ n → (Split s sep).getLast? = some [] →
      s = [] ∨ sep <:+ s := by
  intro n
  induction n with
  | zero =>
    intro s hn _
    exact Or.inl (List.length_eq_zero.mp (by omega))
  | succ k ih =>
    intro s hn h
    rw [Split_eq s sep hsep] at h
    cases hi : Index s sep with
    | none =>
      rw [hi] at h
      simp only [List.getLast?_singleton] at h
      exact Or.inl (Option.some.inj h)
    | some m =>
      rw [hi] at h
      simp only at h
      have hlt := length_drop_lt sep s m hsep hi
      have hne := Split_ne_nil (s.drop (m + sep.length)) sep
      obtain ⟨b, t, hbt⟩ := List.exists_cons_of_ne_nil hne
      rw [hbt, List.getLast?_cons_cons, ← hbt] at h
      have e := Index_eq_some sep s m hi
      right
      rcases ih (s.drop (m + sep.length)) (by omega) h with h0 | hsuf
      · rw [e, h0, List.append_nil]
        exact List.suffix_append _ _
      · rw [e]
        exact hsuf.trans (List.suffix_append _ _)

/-! ## The splitter (claims C3, C7, C9, C10) -/

/-- C3, as stated, fails on the empty input: it contains no separator, and
the splitter produces no chunk at all (the single empty element of the split
is cut off by lines 64-66), not one chunk equal to the input. -/
theorem C3_empty_input_yields_no_chunk :
    Contains [] (separator (lit "linux") []) = false ∧
      chunks (lit "linux") [] = [] ∧
      chunks (lit "linux") [] ≠ [[]] := by
  decide

/-- C3, amended: for every input that contains no occurrence of the separator,
the splitter produces exactly one chunk, equal to the whole input, when the
input is non-empty, and no chunk when the input is empty. -/
theorem C3_no_separator_one_chunk (goos d : Bytes)
    (h : Contains d (separator goos d) = false) :
    chunks goos d = if d = [] then [] else [d] := by
  by_cases hd : d = []
  · subst hd
    rw [if_pos rfl]
    unfold chunks dropTrailingEmpty
    rw [Split_of_Index_none [] _ (Index_nil_of_ne_nil _ (separator_ne_nil goos []))]
    simp
  · rw [if_neg hd]
    exact chunks_of_no_separator goos d hd h

theorem C3_no_separator_one_chunk_witness :
    Contains (lit "kind: Pod") (separator (lit "linux") (lit "kind: Pod")) = false ∧
      chunks (lit "linux") (lit "kind: Pod") = [lit "kind: Pod"] :=
  ⟨by decide, by
    have h := C3_no_separator_one_chunk (lit "linux") (lit "kind: Pod") (by decide)
    rw [h]
    decide⟩

/-- C7: when the split on the separator ends in an empty segment (the input is
empty or ends with the separator), exactly that final segment is cut off, all
other segments are kept unchanged and in order, and the number of chunks is
the number of separator instances counted from left to right without
overlap; when the final segment is not empty, nothing is cut off. -/
theorem C7_trailing_empty_segment_dropped (goos d : Bytes) :
    ((Split d (separator goos d)).getLast? = some [] →
        chunks goos d = (Split d (separator goos d)).dropLast ∧
        chunks goos d ++ [[]] = Split d (separator goos d) ∧
        (chunks goos d).length = Count d (separator goos d) ∧
        (d = [] ∨ separator goos d <:+ d)) ∧
    ((Split d (separator goos d)).getLast? ≠ some [] →
        chunks goos d = Split d (separator goos d) ∧
        (chunks goos d).length = Count d (separator goos d) + 1) := by
  constructor
  · intro h
    have hc : chunks goos d = (Split d (separator goos d)).dropLast := by
      unfold chunks dropTrailingEmpty
      rw [if_pos h]
    refine ⟨hc, ?_, ?_, ?_⟩
    · rw [hc]
      exact dropLast_append_of_getLast _ h
    · rw [hc, List.length_dropLast, length_Split]
      rfl
    · exact getLast_Split_nil _ (separator_ne_nil goos d) d.length d (le_refl _) h
  · intro h
    have hc : chunks goos d = Split d (separator goos d) := by
      unfold chunks dropTrailingEmpty
      rw [if_neg h]
    exact ⟨hc, by rw [hc, length_Split]⟩

theorem C7_trailing_empty_segment_dropped_witness :
    (chunks (lit "linux") (lit "a\n---\n\n---\nb\n---\n") = [lit "a", lit "", lit "b"] ∧
      Count (lit "a\n---\n\n---\nb\n---\n")
        (separator (lit "linux") (lit "a\n---\n\n---\nb\n---\n")) = 3) ∧
    (chunks (lit "linux") (lit "a\n---\nb") = [lit "a", lit "b"] ∧
      Count (lit "a\n---\nb") (separator (lit "linux") (lit "a\n---\nb")) = 1) := by
  have h1 := (C7_trailing_empty_segment_dropped (lit "linux")
    (lit "a\n---\n\n---\nb\n---\n")).1 (by decide)
  have h2 := (C7_trailing_empty_segment_dropped (lit "linux") (lit "a\n---\nb")).2 (by decide)
  refine ⟨⟨?_, ?_⟩, ?_, ?_⟩
  · rw [h1.1]; decide
  · rw [← h1.2.2.1, h1.1]; decide
  · rw [h2.1]; decide
  · have := h2.2
    rw [h2.1] at this
    have e : (Split (lit "a\n---\nb") (separator (lit "linux") (lit "a\n---\nb"))).length = 2 := by
      decide
    omega

/-- C9: the line break is CRLF exactly when the platform is windows and the
input contains a CRLF sequence, and LF in every other case; on any other
platform the separator is LF, three dashes, LF whatever the input contains,
so an input that contains only CRLF-delimited markers is not split. -/
theorem C9_linebreak_platform_gated (goos d : Bytes) :
    (linebreak goos d = lit "\r\n" ↔
        goos = lit "windows" ∧ Contains d (lit "\r\n") = true) ∧
    (¬ (goos = lit "windows" ∧ Contains d (lit "\r\n") = true) →
        linebreak goos d = lit "\n") ∧
    (goos ≠ lit "windows" → separator goos d = lit "\n---\n") ∧
    (goos ≠ lit "windows" → ∀ a b : Bytes, d = a ++ lit "\r\n---\r\n" ++ b →
        Contains d (lit "\n---\n") = false → chunks goos d = [d]) := by
  have hlf : ∀ g x : Bytes, g ≠ lit "windows" → linebreak g x = lit "\n" := by
    intro g x hg
    unfold linebreak
    simp [hg]
  have hsep : goos ≠ lit "windows" → separator goos d = lit "\n---\n" := by
    intro hg
    unfold separator
    rw [hlf goos d hg]
    decide
  refine ⟨?_, ?_, hsep, ?_⟩
  · unfold linebreak
    simp only
    constructor
    · intro h
      split at h
      · rename_i hc
        simp only [Bool.and_eq_true, decide_eq_true_eq] at hc
        exact ⟨hc.2, hc.1⟩
      · exact absurd h (by decide)
    · rintro ⟨hg, hc⟩
      simp [hg, hc]
  · intro h
    unfold linebreak
    simp only
    split
    · rename_i hc
      simp only [Bool.and_eq_true, decide_eq_true_eq] at hc
      exact absurd ⟨hc.2, hc.1⟩ h
    · rfl
  · intro hg a b hd hc
    have hne : d ≠ [] := by
      rw [hd]
      intro e
      have := congrArg List.length e
      simp [lit] at this
    apply chunks_of_no_separator goos d hne
    rw [hsep hg]
    exact hc

theorem C9_linebreak_platform_gated_witness :
    linebreak (lit "windows") (lit "a\r\n---\r\nb") = lit "\r\n" ∧
      linebreak (lit "linux") (lit "a\r\n---\r\nb") = lit "\n" ∧
      separator (lit "linux") (lit "a\r\n---\r\nb") = lit "\n---\n" ∧
      chunks (lit "linux") (lit "a\r\n---\r\nb") = [lit "a\r\n---\r\nb"] :=
  have h := C9_linebreak_platform_gated (lit "linux") (lit "a\r\n---\r\nb")
  ⟨(C9_linebreak_platform_gated (lit "windows") (lit "a\r\n---\r\nb")).1.mpr
      ⟨rfl, by decide⟩,
    h.2.1 (by decide),
    h.2.2.1 (by decide),
    h.2.2.2 (by decide) (lit "a") (lit "b") (by decide) (by decide)⟩

/-- C10: splitting loses and alters no bytes: the chunks, followed by one
empty chunk when lines 64-66 cut the trailing empty element off, joined with
the separator between consecutive elements, are the input. -/
theorem C10_split_join_roundtrip (goos d : Bytes) :
    Join (chunks goos d ++ (if droppedTrailing goos d then [[]] else []))
      (separator goos d) = d := by
  have hj := Join_Split d (separator goos d)
  unfold chunks droppedTrailing dropTrailingEmpty
  by_cases h : (Split d (separator goos d)).getLast? = some []
  · simp only [h, if_true, decide_True]
    rw [dropLast_append_of_getLast _ h]
    exact hj
  · simp only [h, if_false, decide_False, Bool.false_eq_true, List.append_nil]
    exact hj

/-! ## Facts about the loop -/

theorem split_at_index {α : Type} :
    ∀ (l : List α) (i : Nat) (p : α), l[i]? = some p →
      l = l.take i ++ p :: l.drop (i + 1) ∧ (l.take i).length = i := by
  intro l
  induction l with
  | nil => intro i p h; simp at h
  | cons a t ih =>
    intro i p h
    cases i with
    | zero =>
      simp only [List.getElem?_cons_zero, Option.some.injEq] at h
      subst h
      simp
    | succ k =>
      simp only [List.getElem?_cons_succ] at h
      obtain ⟨h1, h2⟩ := ih k p h
      constructor
      · simp only [List.take_succ_cons, List.drop_succ_cons, List.cons_append]
        exact congrArg (List.cons a) h1
      · simp only [List.take_succ_cons, List.length_cons, h2]

theorem filesWritten_append (a b : List Event) :
    filesWritten (a ++ b) = filesWritten a ++ filesWritten b := by
  induction a with
  | nil => rfl
  | cons e t ih =>
    cases e <;> simp [filesWritten, ih]

/-- The chunk index only enters the messages: a chunk that is identified at
one index is identified alike at any other. -/
theorem identify_ok_index (u : Bytes → Except Bytes Data) (i j : Nat) (p : Bytes)
    (x : Option ResourceIdentity) (h : identify u i p = .ok x) : identify u j p = .ok x := by
  unfold identify at h ⊢
  repeat' split at h
  all_goals simp_all

theorem chunkResource_of_identify {σ : Type} (E : Env σ) (i : Nat) (p : Bytes)
    (x : Option ResourceIdentity) (h : identify E.unmarshal i p = .ok x) :
    chunkResource E p = x := by
  unfold chunkResource
  rw [identify_ok_index E.unmarshal i 0 p x h]

theorem processChunk_error {σ : Type} (E : Env σ) (outDir : Bytes) (i : Nat) (p : Bytes)
    (st : State σ) (a : Abort) (h : identify E.unmarshal i p = .error a) :
    processChunk E outDir i p st = ([], .error a) := by
  unfold processChunk
  rw [h]

theorem processChunk_blank {σ : Type} (E : Env σ) (outDir : Bytes) (i : Nat) (p : Bytes)
    (st : State σ) (h : identify E.unmarshal i p = .ok none) :
    processChunk E outDir i p st = ([], .ok st) := by
  unfold processChunk
  rw [h]

theorem processChunk_duplicate {σ : Type} (E : Env σ) (outDir : Bytes) (i : Nat) (p : Bytes)
    (st : State σ) (r : ResourceIdentity) (h : identify E.unmarshal i p = .ok (some r))
    (hc : OutputFilename r ∈ st.created) :
    processChunk E outDir i p st = ([Event.logSkipDuplicate r.name r.kind r.ns], .ok st) := by
  unfold processChunk
  rw [h]
  simp only [hc, if_true]

theorem processChunk_new {σ : Type} (E : Env σ) (outDir : Bytes) (i : Nat) (p : Bytes)
    (st : State σ) (r : ResourceIdentity) (h : identify E.unmarshal i p = .ok (some r))
    (hc : OutputFilename r ∉ st.created) :
    processChunk E outDir i p st =
      match E.writeFile st.fs (outDir ++ lit "/" ++ OutputFilename r) (p ++ lit "\n") with
      | .error err =>
        ([Event.logWriting (OutputFilename r)], .error (.fatal (.writeFile err)))
      | .ok fs2 =>
        ([Event.logWriting (OutputFilename r),
          Event.wrote (outDir ++ lit "/" ++ OutputFilename r) (p ++ lit "\n")],
         .ok ⟨OutputFilename r :: st.created, fs2⟩) := by
  unfold processChunk
  rw [h]
  simp only [hc, if_false]

/-- What a loop body that does not abort has done: nothing for a blank chunk,
a notice for a filename that is in `created`, one write otherwise. -/
theorem processChunk_ok_cases {σ : Type} (E : Env σ) (outDir : Bytes) (i : Nat) (p : Bytes)
    (st s1 : State σ) (e1 : List Event) (h : processChunk E outDir i p st = (e1, .ok s1)) :
    (identify E.unmarshal i p = .ok none ∧ e1 = [] ∧ s1 = st) ∨
    (∃ r, identify E.unmarshal i p = .ok (some r) ∧ OutputFilename r ∈ st.created ∧
        e1 = [Event.logSkipDuplicate r.name r.kind r.ns] ∧ s1 = st) ∨
    (∃ r fs2, identify E.unmarshal i p = .ok (some r) ∧ OutputFilename r ∉ st.created ∧
        E.writeFile st.fs (outDir ++ lit "/" ++ OutputFilename r) (p ++ lit "\n") = .ok fs2 ∧
        e1 = [Event.logWriting (OutputFilename r),
              Event.wrote (outDir ++ lit "/" ++ OutputFilename r) (p ++ lit "\n")] ∧
        s1 = ⟨OutputFilename r :: st.created, fs2⟩) := by
  cases hi : identify E.unmarshal i p with
  | error a =>
    rw [processChunk_error E outDir i p st a hi] at h
    simp at h
  | ok x =>
    cases x with
    | none =>
      rw [processChunk_blank E outDir i p st hi] at h
      simp only [Prod.mk.injEq, Except.ok.injEq] at h
      exact Or.inl ⟨rfl, h.1.symm, h.2.symm⟩
    | some r =>
      by_cases hc : OutputFilename r ∈ st.created
      · rw [processChunk_duplicate E outDir i p st r hi hc] at h
        simp only [Prod.mk.injEq, Except.ok.injEq] at h
        exact Or.inr (Or.inl ⟨r, rfl, hc, h.1.symm, h.2.symm⟩)
      · rw [processChunk_new E outDir i p st r hi hc] at h
        cases hw : E.writeFile st.fs (outDir ++ lit "/" ++ OutputFilename r) (p ++ lit "\n") with
        | error err =>
          rw [hw] at h
          simp at h
        | ok fs2 =>
          rw [hw] at h
          simp only [Prod.mk.injEq, Except.ok.injEq] at h
          exact Or.inr (Or.inr ⟨r, fs2, rfl, hc, hw, h.1.symm, h.2.symm⟩)

/-- A loop body that aborts has written no file. -/
theorem processChunk_error_no_file {σ : Type} (E : Env σ) (outDir : Bytes) (i : Nat)
    (p : Bytes) (st : State σ) (e1 : List Event) (a : Abort)
    (h : processChunk E outDir i p st = (e1, .error a)) : filesWritten e1 = [] := by
  cases hi : identify E.unmarshal i p with
  | error b =>
    rw [processChunk_error E outDir i p st b hi] at h
    simp only [Prod.mk.injEq] at h
    rw [← h.1]
    rfl
  | ok x =>
    cases x with
    | none =>
      rw [processChunk_blank E outDir i p st hi] at h
      simp at h
    | some r =>
      by_cases hc : OutputFilename r ∈ st.created
      · rw [processChunk_duplicate E outDir i p st r hi hc] at h
        simp at h
      · rw [processChunk_new E outDir i p st r hi hc] at h
        cases hw : E.writeFile st.fs (outDir ++ lit "/" ++ OutputFilename r) (p ++ lit "\n") with
        | error err =>
          rw [hw] at h
          simp only [Prod.mk.injEq] at h
          rw [← h.1]
          rfl
        | ok fs2 =>
          rw [hw] at h
          simp at h

theorem loop_nil {σ : Type} (E : Env σ) (outDir : Bytes) (i : Nat) (st : State σ) :
    loop E outDir i [] st = ([], .ok st) := rfl

theorem loop_cons_error {σ : Type} (E : Env σ) (outDir : Bytes) (i : Nat) (p : Bytes)
    (ps : List Bytes) (st : State σ) (e1 : List Event) (a : Abort)
    (h : processChunk E outDir i p st = (e1, .error a)) :
    loop E outDir i (p :: ps) st = (e1, .error a) := by
  simp only [loop, h]

theorem loop_cons_ok {σ : Type} (E : Env σ) (outDir : Bytes) (i : Nat) (p : Bytes)
    (ps : List Bytes) (st s1 : State σ) (e1 : List Event)
    (h : processChunk E outDir i p st = (e1, .ok s1)) :
    loop E outDir i (p :: ps) st =
      (e1 ++ (loop E outDir (i + 1) ps s1).1, (loop E outDir (i + 1) ps s1).2) := by
  simp only [loop, h]

/-- The loop over `xs ++ ys` is the loop over `xs`, and when that comes
through, the loop over `ys` from the state it reached. -/
theorem loop_append {σ : Type} (E : Env σ) (outDir : Bytes) :
    ∀ (xs : List Bytes) (i : Nat) (ys : List Bytes) (st : State σ),
      loop E outDir i (xs ++ ys) st =
        match loop E outDir i xs st with
        | (ev, .error a) => (ev, .error a)
        | (ev, .ok s1) =>
          (ev ++ (loop E outDir (i + xs.length) ys s1).1,
           (loop E outDir (i + xs.length) ys s1).2) := by
  intro xs
  induction xs with
  | nil =>
    intro i ys st
    simp [loop_nil]
  | cons p ps ih =>
    intro i ys st
    rcases hpc : processChunk E outDir i p st with ⟨e1, res⟩
    cases res with
    | error a =>
      rw [List.cons_append, loop_cons_error E outDir i p _ st e1 a hpc,
        loop_cons_error E outDir i p _ st e1 a hpc]
    | ok s1 =>
      rw [List.cons_append, loop_cons_ok E outDir i p _ st s1 e1 hpc,
        loop_cons_ok E outDir i p _ st s1 e1 hpc, ih (i + 1) ys s1]
      rcases hl : loop E outDir (i + 1) ps s1 with ⟨e2, res2⟩
      have hidx : i + 1 + ps.length = i + (p :: ps).length := by
        simp only [List.length_cons]; omega
      cases res2 with
      | error a => simp
      | ok s2 => simp [hidx, List.append_assoc]

theorem chunkFilename_of_identify {σ : Type} (E : Env σ) (i : Nat) (p : Bytes)
    (x : Option ResourceIdentity) (h : identify E.unmarshal i p = .ok x) :
    chunkFilename E p = x.map OutputFilename := by
  unfold chunkFilename
  rw [chunkResource_of_identify E i p x h]

/-- After a loop that came through, `created` holds what it held before and
the OutputFilenames of the chunks gone through. -/
theorem loop_created {σ : Type} (E : Env σ) (outDir : Bytes) :
    ∀ (xs : List Bytes) (i : Nat) (st st2 : State σ) (ev : List Event),
      loop E outDir i xs st = (ev, .ok st2) →
      ∀ f, f ∈ st2.created ↔ f ∈ st.created ∨ f ∈ xs.filterMap (chunkFilename E) := by
  intro xs
  induction xs with
  | nil =>
    intro i st st2 ev h f
    rw [loop_nil] at h
    simp only [Prod.mk.injEq, Except.ok.injEq] at h
    rw [← h.2]
    simp
  | cons p ps ih =>
    intro i st st2 ev h f
    rcases hpc : processChunk E outDir i p st with ⟨e1, res⟩
    cases res with
    | error a =>
      rw [loop_cons_error E outDir i p ps st e1 a hpc] at h
      simp at h
    | ok s1 =>
      rw [loop_cons_ok E outDir i p ps st s1 e1 hpc] at h
      have h2 : loop E outDir (i + 1) ps s1 = ((loop E outDir (i + 1) ps s1).1, .ok st2) := by
        have := (Prod.mk.inj h).2
        exact Prod.ext rfl this
      have key := ih (i + 1) s1 st2 _ h2 f
      rw [key]
      rcases processChunk_ok_cases E outDir i p st s1 e1 hpc with
        ⟨hid, _, hs⟩ | ⟨r, hid, hc, _, hs⟩ | ⟨r, fs2, hid, _, _, _, hs⟩
      · have hcf := chunkFilename_of_identify E i p none hid
        simp only [Option.map_none'] at hcf
        rw [hs, List.filterMap_cons, hcf]
      · have hcf := chunkFilename_of_identify E i p (some r) hid
        simp only [Option.map_some'] at hcf
        rw [hs, List.filterMap_cons, hcf]
        simp only [List.mem_cons]
        constructor
        · rintro (h1 | h1)
          · exact Or.inl h1
          · exact Or.inr (Or.inr h1)
        · rintro (h1 | h1 | h1)
          · exact Or.inl h1
          · exact Or.inl (h1 ▸ hc)
          · exact Or.inr h1
      · have hcf := chunkFilename_of_identify E i p (some r) hid
        simp only [Option.map_some'] at hcf
        rw [hs, List.filterMap_cons, hcf]
        simp only [List.mem_cons]
        constructor
        · rintro ((h1 | h1) | h1)
          · exact Or.inr (Or.inl h1)
          · exact Or.inl h1
          · exact Or.inr (Or.inr h1)
        · rintro (h1 | h1 | h1)
          · exact Or.inl (Or.inr h1)
          · exact Or.inl (Or.inl h1)
          · exact Or.inr h1

/-- A run that came through the first `j` chunks came through the first `i`
chunks, for `i < j`, and through chunk `i` from the state reached there. -/
theorem loop_reaches {σ : Type} (E : Env σ) (outDir : Bytes) (parts : List Bytes)
    (i j : Nat) (q : Bytes) (s0 st : State σ) (evs : List Event)
    (hpre : loop E outDir 0 (parts.take j) s0 = (evs, .ok st))
    (hij : i < j) (hq : parts[i]? = some q) :
    ∃ evi sti e1 s1, loop E outDir 0 (parts.take i) s0 = (evi, .ok sti) ∧
      processChunk E outDir i q sti = (e1, .ok s1) := by
  have hq2 : (parts.take j)[i]? = some q := by
    rw [List.getElem?_take_of_lt hij]
    exact hq
  obtain ⟨hsplit, hlen⟩ := split_at_index (parts.take j) i q hq2
  have htt : (parts.take j).take i = parts.take i := by
    rw [List.take_take, Nat.min_eq_left (Nat.le_of_lt hij)]
  rw [htt] at hsplit hlen
  rw [hsplit, loop_append] at hpre
  rcases hl : loop E outDir 0 (parts.take i) s0 with ⟨evi, res⟩
  rw [hl] at hpre
  cases res with
  | error a => simp at hpre
  | ok sti =>
    simp only [hlen, Nat.zero_add] at hpre
    rcases hpc : processChunk E outDir i q sti with ⟨e1, res1⟩
    cases res1 with
    | error a =>
      rw [loop_cons_error E outDir i q _ sti e1 a hpc] at hpre
      simp at hpre
    | ok s1 => exact ⟨evi, sti, e1, s1, rfl, hpc⟩

/-- Whatever the outcome of the loop, the files it wrote have pairwise distinct
paths, each the path of a filename that was not in `created` before. -/
theorem loop_written {σ : Type} (E : Env σ) (outDir : Bytes) :
    ∀ (xs : List Bytes) (i : Nat) (st : State σ),
      ((filesWritten (loop E outDir i xs st).1).map Prod.fst).Nodup ∧
      ∀ w ∈ filesWritten (loop E outDir i xs st).1,
        ∃ f, w.1 = outDir ++ lit "/" ++ f ∧ f ∉ st.created := by
  intro xs
  induction xs with
  | nil =>
    intro i st
    simp [loop_nil, filesWritten]
  | cons p ps ih =>
    intro i st
    rcases hpc : processChunk E outDir i p st with ⟨e1, res⟩
    cases res with
    | error a =>
      rw [loop_cons_error E outDir i p ps st e1 a hpc]
      simp [processChunk_error_no_file E outDir i p st e1 a hpc]
    | ok s1 =>
      rw [loop_cons_ok E outDir i p ps st s1 e1 hpc]
      obtain ⟨ihn, ihm⟩ := ih (i + 1) s1
      simp only [filesWritten_append]
      rcases processChunk_ok_cases E outDir i p st s1 e1 hpc with
        ⟨_, he, hs⟩ | ⟨r, _, _, he, hs⟩ | ⟨r, fs2, _, hc, _, he, hs⟩
      · subst he hs
        rw [show filesWritten [] = [] from rfl, List.nil_append]
        exact ⟨ihn, ihm⟩
      · subst he hs
        rw [show filesWritten [Event.logSkipDuplicate r.name r.kind r.ns] = [] from rfl,
          List.nil_append]
        exact ⟨ihn, ihm⟩
      · subst he
        simp only [filesWritten, List.cons_append, List.nil_append, List.map_cons,
          List.nodup_cons, List.mem_map, List.mem_cons]
        refine ⟨⟨?_, ihn⟩, ?_⟩
        · rintro ⟨w, hw, hw1⟩
          obtain ⟨f, hf1, hf2⟩ := ihm w hw
          rw [hf1] at hw1
          have : f = OutputFilename r := List.append_cancel_left hw1
          rw [hs] at hf2
          exact hf2 (by simp [this])
        · rintro w (hw | hw)
          · exact ⟨OutputFilename r, by rw [hw], hc⟩
          · obtain ⟨f, hf1, hf2⟩ := ihm w hw
            rw [hs] at hf2
            exact ⟨f, hf1, fun hmem => hf2 (List.mem_cons_of_mem _ hmem)⟩

/-- The files of a loop that came through are the expected files, when
`created` holds the OutputFilenames of the earlier chunks. -/
theorem loop_files_expected {σ : Type} (E : Env σ) (outDir : Bytes) :
    ∀ (ps earlier : List Bytes) (i : Nat) (st st2 : State σ) (ev : List Event),
      (∀ f, f ∈ st.created ↔ f ∈ earlier.filterMap (chunkFilename E)) →
      loop E outDir i ps st = (ev, .ok st2) →
      filesWritten ev = expectedFilesFrom E outDir earlier ps := by
  intro ps
  induction ps with
  | nil =>
    intro earlier i st st2 ev _ h
    rw [loop_nil] at h
    rw [← (Prod.mk.inj h).1]
    rfl
  | cons p ps ih =>
    intro earlier i st st2 ev hinv h
    rcases hpc : processChunk E outDir i p st with ⟨e1, res⟩
    cases res with
    | error a =>
      rw [loop_cons_error E outDir i p ps st e1 a hpc] at h
      simp at h
    | ok s1 =>
      rw [loop_cons_ok E outDir i p ps st s1 e1 hpc] at h
      have hev := (Prod.mk.inj h).1
      have h2 : loop E outDir (i + 1) ps s1 = ((loop E outDir (i + 1) ps s1).1, .ok st2) :=
        Prod.ext rfl (Prod.mk.inj h).2
      rw [← hev, filesWritten_append]
      unfold expectedFilesFrom
      rcases processChunk_ok_cases E outDir i p st s1 e1 hpc with
        ⟨hid, he, hs⟩ | ⟨r, hid, hc, he, hs⟩ | ⟨r, fs2, hid, hc, _, he, hs⟩
      · have hcr := chunkResource_of_identify E i p none hid
        have hcf := chunkFilename_of_identify E i p none hid
        simp only [Option.map_none'] at hcf
        have hinv2 : ∀ f, f ∈ s1.created ↔ f ∈ (earlier ++ [p]).filterMap (chunkFilename E) := by
          intro f
          rw [hs, hinv f, List.filterMap_append]
          simp [hcf]
        rw [ih (earlier ++ [p]) (i + 1) s1 st2 _ hinv2 h2, hcr, he]
        rfl
      · have hcr := chunkResource_of_identify E i p (some r) hid
        have hcf := chunkFilename_of_identify E i p (some r) hid
        simp only [Option.map_some'] at hcf
        have hmem : OutputFilename r ∈ earlier.filterMap (chunkFilename E) := (hinv _).mp hc
        have hinv2 : ∀ f, f ∈ s1.created ↔ f ∈ (earlier ++ [p]).filterMap (chunkFilename E) := by
          intro f
          rw [hs, hinv f, List.filterMap_append]
          simp only [List.filterMap_cons, hcf, List.filterMap_nil, List.mem_append,
            List.mem_singleton]
          constructor
          · exact Or.inl
          · rintro (h1 | h1)
            · exact h1
            · exact h1 ▸ hmem
        rw [ih (earlier ++ [p]) (i + 1) s1 st2 _ hinv2 h2, hcr, he]
        have hmem2 : r.kind ++ lit "__" ++ r.name ++ lit "__" ++ r.ns ++ lit ".yaml" ∈
            earlier.filterMap (chunkFilename E) := hmem
        simp only [hmem2, if_true]
        rfl
      · have hcr := chunkResource_of_identify E i p (some r) hid
        have hcf := chunkFilename_of_identify E i p (some r) hid
        simp only [Option.map_some'] at hcf
        have hnmem : OutputFilename r ∉ earlier.filterMap (chunkFilename E) :=
          fun hm => hc ((hinv _).mpr hm)
        have hinv2 : ∀ f, f ∈ s1.created ↔ f ∈ (earlier ++ [p]).filterMap (chunkFilename E) := by
          intro f
          rw [hs, List.filterMap_append]
          simp only [List.filterMap_cons, hcf, List.filterMap_nil, List.mem_append,
            List.mem_singleton, List.mem_cons, hinv f, List.not_mem_nil, or_false]
          exact Or.comm
        rw [ih (earlier ++ [p]) (i + 1) s1 st2 _ hinv2 h2, hcr, he]
        have hnmem2 : r.kind ++ lit "__" ++ r.name ++ lit "__" ++ r.ns ++ lit ".yaml" ∉
            earlier.filterMap (chunkFilename E) := hnmem
        simp only [hnmem2, if_false]
        rfl

/-! ## Field extraction (claims C2, C4) -/

/-- C2 does not hold of the code: for a non-blank document with a string
`kind` whose `metadata` is absent or not a mapping, the conversion of line 89
panics; extraction does not end in the fatal missing-`metadata.name` error
that a `metadata` mapping without a string `name` gets. -/
theorem C2_metadata_not_a_mapping_panics (u : Bytes → Except Bytes Data) (i : Nat)
    (p : Bytes) (data : Data) (kind : Bytes)
    (hp : u p = .ok data) (hne : data.length ≠ 0)
    (hk : assertString (dataAt data (lit "kind")) = some kind)
    (hm : assertMap (dataAt data (lit "metadata")) = none) :
    identify u i p = .error .panic ∧
      identify u i p ≠ .error (.fatal (.noMetadataName i)) := by
  have h : identify u i p = .error .panic := by
    unfold identify
    simp only [hp, hne, if_false, hk, hm]
  rw [h]
  exact ⟨rfl, by simp⟩

theorem C2_metadata_not_a_mapping_panics_witness :
    (identify exampleEnv.unmarshal 0 podNoMetadata = .error .panic ∧
      identify exampleEnv.unmarshal 0 podNoMetadata ≠ .error (.fatal (.noMetadataName 0))) ∧
    identify exampleEnv.unmarshal 0 podScalarMetadata = .error .panic ∧
    identify exampleEnv.unmarshal 0 podNoName = .error (.fatal (.noMetadataName 0)) :=
  ⟨C2_metadata_not_a_mapping_panics exampleEnv.unmarshal 0 podNoMetadata
      [(lit "kind", Value.str (lit "Pod"))] (lit "Pod") (by rfl) (by decide) (by rfl) (by rfl),
    by rfl, by rfl⟩

/-- C4: for a non-blank document with a string `kind` and a string
`metadata.name`, a string `metadata.namespace` is the namespace; without one,
the namespace is the name when `kind` is exactly `Namespace`, and otherwise
the chunk, and with it the run, ends in a fatal error. -/
theorem C4_namespace_resolution {σ : Type} (E : Env σ) (i : Nat) (p : Bytes) (data : Data)
    (kind name : Bytes) (md : List (Value × Value))
    (hp : E.unmarshal p = .ok data) (hne : data.length ≠ 0)
    (hk : assertString (dataAt data (lit "kind")) = some kind)
    (hm : assertMap (dataAt data (lit "metadata")) = some md)
    (hn : assertString (mapAt md (lit "name")) = some name) :
    (∀ ns, assertString (mapAt md (lit "namespace")) = some ns →
        identify E.unmarshal i p = .ok (some ⟨kind, name, ns⟩)) ∧
    (assertString (mapAt md (lit "namespace")) = none → kind = lit "Namespace" →
        identify E.unmarshal i p = .ok (some ⟨kind, name, name⟩)) ∧
    (assertString (mapAt md (lit "namespace")) = none → kind ≠ lit "Namespace" →
        identify E.unmarshal i p = .error (.fatal (.noMetadataName i)) ∧
        ∀ (outDir : Bytes) (ps : List Bytes) (st : State σ),
          loop E outDir i (p :: ps) st = ([], .error (.fatal (.noMetadataName i)))) := by
  refine ⟨?_, ?_, ?_⟩
  · intro ns hns
    unfold identify
    simp only [hp, hne, if_false, hk, hm, hn, hns]
  · intro hns hkind
    unfold identify
    simp only [hp, hne, if_false, hk, hm, hn, hns, hkind, ne_eq, not_true_eq_false]
  · intro hns hkind
    have h : identify E.unmarshal i p = .error (.fatal (.noMetadataName i)) := by
      unfold identify
      simp only [hp, hne, if_false, hk, hm, hn, hns, ne_eq, hkind, not_false_eq_true, if_true]
    refine ⟨h, ?_⟩
    intro outDir ps st
    exact loop_cons_error E outDir i p ps st [] _ (processChunk_error E outDir i p st _ h)

theorem C4_namespace_resolution_witness :
    identify exampleEnv.unmarshal 0 podFooBar = .ok (some ⟨lit "Pod", lit "foo", lit "bar"⟩) ∧
    identify exampleEnv.unmarshal 0 namespaceDev =
      .ok (some ⟨lit "Namespace", lit "dev", lit "dev"⟩) :=
  ⟨(C4_namespace_resolution exampleEnv 0 podFooBar
      (resourceData (lit "Pod") (lit "foo") (lit "bar")) (lit "Pod") (lit "foo")
      [(Value.str (lit "name"), Value.str (lit "foo")),
       (Value.str (lit "namespace"), Value.str (lit "bar"))]
      (by rfl) (by decide) (by rfl) (by rfl) (by rfl)).1 (lit "bar") (by rfl),
   (C4_namespace_resolution exampleEnv 0 namespaceDev
      [(lit "kind", Value.str (lit "Namespace")),
       (lit "metadata", Value.map [(Value.str (lit "name"), Value.str (lit "dev"))])]
      (lit "Namespace") (lit "dev")
      [(Value.str (lit "name"), Value.str (lit "dev"))]
      (by rfl) (by decide) (by rfl) (by rfl) (by rfl)).2.1 (by rfl) (by rfl)⟩

/-! ## Abort (claim C8) -/

/-- When the run comes through chunks `0..k-1` and the extraction of chunk `k`
aborts, the loop ends in that abort with the events of the run over chunks
`0..k-1` alone. -/
theorem loop_abort_at {σ : Type} (E : Env σ) (outDir : Bytes)
    (parts : List Bytes) (k : Nat) (p : Bytes) (fs : σ) (evs : List Event) (st : State σ)
    (a : Abort)
    (hk : parts[k]? = some p)
    (hpre : loop E outDir 0 (parts.take k) ⟨[], fs⟩ = (evs, .ok st))
    (hfatal : identify E.unmarshal k p = .error a) :
    loop E outDir 0 parts ⟨[], fs⟩ = (evs, .error a) := by
  obtain ⟨hsplit, hlen⟩ := split_at_index parts k p hk
  rw [hsplit, loop_append, hpre]
  simp only [hlen, Nat.zero_add]
  rw [loop_cons_error E outDir k p _ st [] a (processChunk_error E outDir k p st a hfatal)]
  simp

/-- C8 does not hold of the code in one of its cases.  When the run comes
through chunks `0..k-1` with events `evs`, the run over all chunks ends at
chunk `k` with exactly the events `evs`, so with the files of chunks `0..k-1`
alone and none for chunk `k` or a later one, in each case below; it ends in a
`log.Fatal` error when chunk `k` does not decode, when its `kind` is missing or
not a string, when its `metadata` mapping has no string `name`, and when a
required `metadata.namespace` is missing or not a string; but when `metadata`
is absent or not a mapping, so that `metadata.name` is missing, it ends in the
runtime panic of line 89 and not in a fatal error. -/
theorem C8_first_fatal_chunk_ends_run {σ : Type} (E : Env σ) (outDir : Bytes)
    (parts : List Bytes) (k : Nat) (p : Bytes) (fs : σ) (evs : List Event) (st : State σ)
    (hk : parts[k]? = some p)
    (hpre : loop E outDir 0 (parts.take k) ⟨[], fs⟩ = (evs, .ok st)) :
    (∀ err, E.unmarshal p = .error err →
        loop E outDir 0 parts ⟨[], fs⟩ = (evs, .error (.fatal (.loadYaml err)))) ∧
    (∀ data, E.unmarshal p = .ok data → data.length ≠ 0 →
        assertString (dataAt data (lit "kind")) = none →
        loop E outDir 0 parts ⟨[], fs⟩ = (evs, .error (.fatal (.noKind k)))) ∧
    (∀ data kind md, E.unmarshal p = .ok data → data.length ≠ 0 →
        assertString (dataAt data (lit "kind")) = some kind →
        assertMap (dataAt data (lit "metadata")) = some md →
        assertString (mapAt md (lit "name")) = none →
        loop E outDir 0 parts ⟨[], fs⟩ = (evs, .error (.fatal (.noMetadataName k)))) ∧
    (∀ data kind md name, E.unmarshal p = .ok data → data.length ≠ 0 →
        assertString (dataAt data (lit "kind")) = some kind →
        assertMap (dataAt data (lit "metadata")) = some md →
        assertString (mapAt md (lit "name")) = some name →
        assertString (mapAt md (lit "namespace")) = none → kind ≠ lit "Namespace" →
        loop E outDir 0 parts ⟨[], fs⟩ = (evs, .error (.fatal (.noMetadataName k)))) ∧
    (∀ data kind, E.unmarshal p = .ok data → data.length ≠ 0 →
        assertString (dataAt data (lit "kind")) = some kind →
        assertMap (dataAt data (lit "metadata")) = none →
        loop E outDir 0 parts ⟨[], fs⟩ = (evs, .error .panic)) := by
  refine ⟨?_, ?_, ?_, ?_, ?_⟩
  · intro err hp
    apply loop_abort_at E outDir parts k p fs evs st _ hk hpre
    unfold identify
    simp only [hp]
  · intro data hp hne hkind
    apply loop_abort_at E outDir parts k p fs evs st _ hk hpre
    unfold identify
    simp only [hp, hne, if_false, hkind]
  · intro data kind md hp hne hkind hm hn
    apply loop_abort_at E outDir parts k p fs evs st _ hk hpre
    unfold identify
    simp only [hp, hne, if_false, hkind, hm, hn]
  · intro data kind md name hp hne hkind hm hn hns hnk
    apply loop_abort_at E outDir parts k p fs evs st _ hk hpre
    unfold identify
    simp only [hp, hne, if_false, hkind, hm, hn, hns, ne_eq, hnk, not_false_eq_true, if_true]
  · intro data kind hp hne hkind hm
    apply loop_abort_at E outDir parts k p fs evs st _ hk hpre
    unfold identify
    simp only [hp, hne, if_false, hkind, hm]

theorem C8_first_fatal_chunk_ends_run_witness :
    loop exampleEnv (lit ".") 0 [podFooBar, podNoMetadata, namespaceDev] ⟨[], []⟩ =
      ([Event.logWriting (lit "Pod__foo__bar.yaml"),
        Event.wrote (lit "./Pod__foo__bar.yaml") (podFooBar ++ lit "\n")],
       .error .panic) ∧
    loop exampleEnv (lit ".") 0 [podFooBar, podNoName, namespaceDev] ⟨[], []⟩ =
      ([Event.logWriting (lit "Pod__foo__bar.yaml"),
        Event.wrote (lit "./Pod__foo__bar.yaml") (podFooBar ++ lit "\n")],
       .error (.fatal (.noMetadataName 1))) :=
  ⟨(C8_first_fatal_chunk_ends_run exampleEnv (lit ".") [podFooBar, podNoMetadata, namespaceDev]
      1 podNoMetadata []
      [Event.logWriting (lit "Pod__foo__bar.yaml"),
        Event.wrote (lit "./Pod__foo__bar.yaml") (podFooBar ++ lit "\n")]
      ⟨[lit "Pod__foo__bar.yaml"], [(lit "./Pod__foo__bar.yaml", podFooBar ++ lit "\n")]⟩
      (by rfl) (by rfl)).2.2.2.2
      [(lit "kind", Value.str (lit "Pod"))] (lit "Pod") (by rfl) (by decide) (by rfl) (by rfl),
   (C8_first_fatal_chunk_ends_run exampleEnv (lit ".") [podFooBar, podNoName, namespaceDev]
      1 podNoName []
      [Event.logWriting (lit "Pod__foo__bar.yaml"),
        Event.wrote (lit "./Pod__foo__bar.yaml") (podFooBar ++ lit "\n")]
      ⟨[lit "Pod__foo__bar.yaml"], [(lit "./Pod__foo__bar.yaml", podFooBar ++ lit "\n")]⟩
      (by rfl) (by rfl)).2.2.1
      [(lit "kind", Value.str (lit "Pod")),
       (lit "metadata", Value.map [(Value.str (lit "namespace"), Value.str (lit "bar"))])]
      (lit "Pod") [(Value.str (lit "namespace"), Value.str (lit "bar"))]
      (by rfl) (by decide) (by rfl) (by rfl) (by rfl)⟩

/-! ## Deduplication (claims C1, C6) and the files written (claim C5) -/

theorem append_sep_inj (c : UInt8) :
    ∀ (x x2 rest rest2 : Bytes), c ∉ x → c ∉ x2 → x ++ c :: rest = x2 ++ c :: rest2 →
      x = x2 ∧ rest = rest2 := by
  intro x
  induction x with
  | nil =>
    intro x2 rest rest2 _ h2 h
    cases x2 with
    | nil =>
      simp only [List.nil_append, List.cons.injEq, true_and] at h
      exact ⟨rfl, h⟩
    | cons b t =>
      simp only [List.nil_append, List.cons_append, List.cons.injEq] at h
      exact absurd (by simp [h.1]) h2
  | cons a t ih =>
    intro x2 rest rest2 h1 h2 h
    cases x2 with
    | nil =>
      simp only [List.nil_append, List.cons_append, List.cons.injEq] at h
      exact absurd (by simp [h.1]) h1
    | cons b t2 =>
      simp only [List.cons_append, List.cons.injEq] at h
      have h1t : c ∉ t := fun hm => h1 (List.mem_cons_of_mem _ hm)
      have h2t : c ∉ t2 := fun hm => h2 (List.mem_cons_of_mem _ hm)
      obtain ⟨e1, e2⟩ := ih t2 rest rest2 h1t h2t h.2
      exact ⟨by rw [h.1, e1], e2⟩

theorem OutputFilename_eq (r : ResourceIdentity) :
    OutputFilename r =
      r.kind ++ underscore :: underscore :: (r.name ++ underscore :: underscore ::
        (r.ns ++ lit ".yaml")) := by
  have e : lit "__" = [underscore, underscore] := by decide
  unfold OutputFilename
  rw [e]
  simp only [List.append_assoc, List.cons_append, List.nil_append]

/-- Without underscores in kind and name, the filename determines the triple. -/
theorem OutputFilename_injective (a b : ResourceIdentity) (ha : underscoreFree a)
    (hb : underscoreFree b) (h : OutputFilename a = OutputFilename b) : a = b := by
  rw [OutputFilename_eq, OutputFilename_eq] at h
  obtain ⟨hkind, h1⟩ := append_sep_inj underscore _ _ _ _ ha.1 hb.1 h
  have h2 := List.tail_eq_of_cons_eq h1
  obtain ⟨hname, h3⟩ := append_sep_inj underscore _ _ _ _ ha.2 hb.2 h2
  have h4 := List.tail_eq_of_cons_eq h3
  have hns : a.ns = b.ns := List.append_cancel_right h4
  cases a
  cases b
  simp only at hkind hname hns
  rw [hkind, hname, hns]

/-- C6, as stated, fails: the documents of kind `a__b` named `c` and of kind
`a` named `b__c`, both in namespace `ns1`, have different triples and the same
OutputFilename, and the second is skipped as a duplicate of the first. -/
theorem C6_distinct_triples_share_filename :
    identify exampleEnv.unmarshal 0 docKindWithUnderscores =
        .ok (some ⟨lit "a__b", lit "c", lit "ns1"⟩) ∧
    identify exampleEnv.unmarshal 1 docNameWithUnderscores =
        .ok (some ⟨lit "a", lit "b__c", lit "ns1"⟩) ∧
    (⟨lit "a__b", lit "c", lit "ns1"⟩ : ResourceIdentity) ≠ ⟨lit "a", lit "b__c", lit "ns1"⟩ ∧
    OutputFilename ⟨lit "a__b", lit "c", lit "ns1"⟩ = OutputFilename ⟨lit "a", lit "b__c", lit "ns1"⟩ ∧
    loop exampleEnv (lit ".") 0 [docKindWithUnderscores, docNameWithUnderscores] ⟨[], []⟩ =
      ([Event.logWriting (lit "a__b__c__ns1.yaml"),
        Event.wrote (lit "./a__b__c__ns1.yaml") (docKindWithUnderscores ++ lit "\n"),
        Event.logSkipDuplicate (lit "b__c") (lit "a") (lit "ns1")],
       .ok ⟨[lit "a__b__c__ns1.yaml"],
            [(lit "./a__b__c__ns1.yaml", docKindWithUnderscores ++ lit "\n")]⟩) :=
  ⟨by rfl, by rfl, by decide, by decide, by rfl⟩

/-- C6, amended: for a chunk `p` that the run reaches as chunk `j` (every
earlier chunk was processed without abort) and that resolves to a triple:
it is skipped as a duplicate exactly when an earlier chunk of the run resolved
to the same OutputFilename; when none did, its file is written if its
`WriteFile` succeeds, and the run ends in the fatal write error if it fails;
two triples that differ and have no underscore in kind and name have different
OutputFilenames, so a chunk with such a triple is skipped only after an
earlier chunk with the same triple or one with an underscore in kind or name. -/
theorem C6_duplicate_iff_same_filename_earlier {σ : Type} (E : Env σ) (outDir : Bytes)
    (parts : List Bytes) (j : Nat) (p : Bytes) (r : ResourceIdentity) (fs : σ)
    (evs : List Event) (st : State σ)
    (hpre : loop E outDir 0 (parts.take j) ⟨[], fs⟩ = (evs, .ok st))
    (hr : identify E.unmarshal j p = .ok (some r)) :
    (processChunk E outDir j p st = ([Event.logSkipDuplicate r.name r.kind r.ns], .ok st) ↔
        ∃ q ∈ parts.take j, chunkFilename E q = some (OutputFilename r)) ∧
    ((¬ ∃ q ∈ parts.take j, chunkFilename E q = some (OutputFilename r)) →
        ∀ fs2, E.writeFile st.fs (outDir ++ lit "/" ++ OutputFilename r) (p ++ lit "\n") =
            .ok fs2 →
          filesWritten (processChunk E outDir j p st).1 =
            [(outDir ++ lit "/" ++ OutputFilename r, p ++ lit "\n")]) ∧
    (∀ r2 : ResourceIdentity, underscoreFree r → underscoreFree r2 → r2 ≠ r →
        OutputFilename r2 ≠ OutputFilename r) ∧
    (underscoreFree r →
        processChunk E outDir j p st = ([Event.logSkipDuplicate r.name r.kind r.ns], .ok st) →
        ∃ q ∈ parts.take j, ∃ r2, chunkResource E q = some r2 ∧
          (r2 = r ∨ ¬ underscoreFree r2)) ∧
    ((¬ ∃ q ∈ parts.take j, chunkFilename E q = some (OutputFilename r)) →
        ∀ err, E.writeFile st.fs (outDir ++ lit "/" ++ OutputFilename r) (p ++ lit "\n") =
            .error err →
          processChunk E outDir j p st =
            ([Event.logWriting (OutputFilename r)], .error (.fatal (.writeFile err)))) := by
  have hcreated : ∀ f, f ∈ st.created ↔ ∃ q ∈ parts.take j, chunkFilename E q = some f := by
    intro f
    rw [loop_created E outDir (parts.take j) 0 ⟨[], fs⟩ st evs hpre f]
    simp [List.mem_filterMap]
  have hskip : processChunk E outDir j p st =
      ([Event.logSkipDuplicate r.name r.kind r.ns], .ok st) ↔
      ∃ q ∈ parts.take j, chunkFilename E q = some (OutputFilename r) := by
    rw [← hcreated]
    constructor
    · intro h
      by_contra hc
      rw [processChunk_new E outDir j p st r hr hc] at h
      split at h <;> simp at h
    · intro hc
      exact processChunk_duplicate E outDir j p st r hr hc
  refine ⟨hskip, ?_, ?_, ?_, ?_⟩
  rotate_left 3
  · intro hno err hw
    have hc : OutputFilename r ∉ st.created := fun hm => hno ((hcreated _).mp hm)
    rw [processChunk_new E outDir j p st r hr hc, hw]
  · intro hno fs2 hw
    have hc : OutputFilename r ∉ st.created := fun hm => hno ((hcreated _).mp hm)
    rw [processChunk_new E outDir j p st r hr hc, hw]
    rfl
  · intro r2 h1 h2 hne he
    exact hne (OutputFilename_injective r2 r h2 h1 he)
  · intro hfree h
    obtain ⟨q, hq, hqf⟩ := hskip.mp h
    unfold chunkFilename at hqf
    cases hcr : chunkResource E q with
    | none => rw [hcr] at hqf; simp at hqf
    | some r2 =>
      rw [hcr] at hqf
      simp only [Option.map_some', Option.some.injEq] at hqf
      refine ⟨q, hq, r2, hcr, ?_⟩
      by_cases h2 : underscoreFree r2
      · exact Or.inl (OutputFilename_injective r2 r h2 hfree hqf)
      · exact Or.inr h2

theorem C6_duplicate_iff_same_filename_earlier_witness :
    filesWritten (processChunk exampleEnv (lit ".") 1 namespaceDev
        ⟨[lit "Pod__foo__bar.yaml"], [(lit "./Pod__foo__bar.yaml", podFooBar ++ lit "\n")]⟩).1 =
      [(lit "./Namespace__dev__dev.yaml", namespaceDev ++ lit "\n")] :=
  (C6_duplicate_iff_same_filename_earlier exampleEnv (lit ".") [podFooBar, namespaceDev] 1
    namespaceDev ⟨lit "Namespace", lit "dev", lit "dev"⟩ []
    [Event.logWriting (lit "Pod__foo__bar.yaml"),
      Event.wrote (lit "./Pod__foo__bar.yaml") (podFooBar ++ lit "\n")]
    ⟨[lit "Pod__foo__bar.yaml"], [(lit "./Pod__foo__bar.yaml", podFooBar ++ lit "\n")]⟩
    (by rfl) (by rfl)).2.1 (by decide)
    [(lit "./Pod__foo__bar.yaml", podFooBar ++ lit "\n"),
      (lit "./Namespace__dev__dev.yaml", namespaceDev ++ lit "\n")] (by rfl)

theorem nodup_filter_eq_length_le_one (x : Bytes) :
    ∀ (l : List Bytes), l.Nodup → (l.filter (fun y => decide (y = x))).length ≤ 1 := by
  intro l
  induction l with
  | nil => intro _; simp
  | cons a t ih =>
    intro h
    obtain ⟨hat, ht⟩ := List.nodup_cons.mp h
    by_cases hax : a = x
    · have hnil : t.filter (fun y => decide (y = x)) = [] := by
        rw [List.filter_eq_nil_iff]
        intro y hy
        simp only [decide_eq_true_eq]
        intro hyx
        exact hat (by rw [hax, ← hyx]; exact hy)
      rw [List.filter_cons_of_pos (by simpa using hax), hnil]
      simp
    · rw [List.filter_cons_of_neg (by simpa using hax)]
      exact ih ht

/-- C1, as stated, fails for the pair of the second and third of three
identical documents: both resolve to the same triple, and the earlier one of
the pair is not written, it is itself skipped as a duplicate of the first. -/
theorem C1_earlier_of_pair_not_written :
    identify exampleEnv.unmarshal 1 podFooBar = .ok (some ⟨lit "Pod", lit "foo", lit "bar"⟩) ∧
    identify exampleEnv.unmarshal 2 podFooBar = .ok (some ⟨lit "Pod", lit "foo", lit "bar"⟩) ∧
    loop exampleEnv (lit ".") 0 [podFooBar] ⟨[], []⟩ =
      ([Event.logWriting (lit "Pod__foo__bar.yaml"),
        Event.wrote (lit "./Pod__foo__bar.yaml") (podFooBar ++ lit "\n")],
       .ok ⟨[lit "Pod__foo__bar.yaml"],
            [(lit "./Pod__foo__bar.yaml", podFooBar ++ lit "\n")]⟩) ∧
    processChunk exampleEnv (lit ".") 1 podFooBar
        ⟨[lit "Pod__foo__bar.yaml"], [(lit "./Pod__foo__bar.yaml", podFooBar ++ lit "\n")]⟩ =
      ([Event.logSkipDuplicate (lit "foo") (lit "Pod") (lit "bar")],
       .ok ⟨[lit "Pod__foo__bar.yaml"],
            [(lit "./Pod__foo__bar.yaml", podFooBar ++ lit "\n")]⟩) ∧
    (loop exampleEnv (lit ".") 0 [podFooBar, podFooBar, podFooBar] ⟨[], []⟩).1 =
      [Event.logWriting (lit "Pod__foo__bar.yaml"),
       Event.wrote (lit "./Pod__foo__bar.yaml") (podFooBar ++ lit "\n"),
       Event.logSkipDuplicate (lit "foo") (lit "Pod") (lit "bar"),
       Event.logSkipDuplicate (lit "foo") (lit "Pod") (lit "bar")] :=
  ⟨by rfl, by rfl, by rfl, by rfl, by rfl⟩

/-- C1, amended: for chunks `i < j` of a run that reaches chunk `j`, both
non-blank and resolving to the same triple, the later one is skipped with a
duplicate notice and writes nothing, and the earlier one is written exactly
when no chunk before it resolved to the same OutputFilename (otherwise it is
itself skipped with a notice); over the whole run the paths written are
pairwise distinct, so at most one file is written per triple. -/
theorem C1_later_duplicate_skipped {σ : Type} (E : Env σ) (outDir : Bytes)
    (parts : List Bytes) (i j : Nat) (pi pj : Bytes) (r : ResourceIdentity) (fs : σ)
    (evs : List Event) (st : State σ)
    (hij : i < j) (hi : parts[i]? = some pi)
    (hri : identify E.unmarshal i pi = .ok (some r))
    (hrj : identify E.unmarshal j pj = .ok (some r))
    (hpre : loop E outDir 0 (parts.take j) ⟨[], fs⟩ = (evs, .ok st)) :
    processChunk E outDir j pj st = ([Event.logSkipDuplicate r.name r.kind r.ns], .ok st) ∧
    (∃ evi sti, loop E outDir 0 (parts.take i) ⟨[], fs⟩ = (evi, .ok sti) ∧
      ((¬ ∃ q ∈ parts.take i, chunkFilename E q = some (OutputFilename r)) →
        filesWritten (processChunk E outDir i pi sti).1 =
          [(outDir ++ lit "/" ++ OutputFilename r, pi ++ lit "\n")]) ∧
      ((∃ q ∈ parts.take i, chunkFilename E q = some (OutputFilename r)) →
        processChunk E outDir i pi sti =
          ([Event.logSkipDuplicate r.name r.kind r.ns], .ok sti))) ∧
    ((filesWritten (loop E outDir 0 parts ⟨[], fs⟩).1).map Prod.fst).Nodup ∧
    (∀ r2 : ResourceIdentity,
      (((filesWritten (loop E outDir 0 parts ⟨[], fs⟩).1).map Prod.fst).filter
        (fun path => decide (path = outDir ++ lit "/" ++ OutputFilename r2))).length ≤ 1) := by
  have hnodup := (loop_written E outDir parts 0 ⟨[], fs⟩).1
  refine ⟨?_, ?_, hnodup, fun r2 => nodup_filter_eq_length_le_one _ _ hnodup⟩
  · apply processChunk_duplicate E outDir j pj st r hrj
    rw [loop_created E outDir (parts.take j) 0 ⟨[], fs⟩ st evs hpre]
    right
    rw [List.mem_filterMap]
    refine ⟨pi, ?_, ?_⟩
    · rw [List.mem_iff_getElem?]
      exact ⟨i, by rw [List.getElem?_take_of_lt hij]; exact hi⟩
    · rw [chunkFilename_of_identify E i pi (some r) hri]
      rfl
  · obtain ⟨evi, sti, e1, s1, hli, hpc⟩ :=
      loop_reaches E outDir parts i j pi ⟨[], fs⟩ st evs hpre hij hi
    have hcreated : ∀ f, f ∈ sti.created ↔ ∃ q ∈ parts.take i, chunkFilename E q = some f := by
      intro f
      rw [loop_created E outDir (parts.take i) 0 ⟨[], fs⟩ sti evi hli f]
      simp [List.mem_filterMap]
    refine ⟨evi, sti, hli, ?_, ?_⟩
    · intro hno
      have hc : OutputFilename r ∉ sti.created := fun hm => hno ((hcreated _).mp hm)
      rw [processChunk_new E outDir i pi sti r hri hc] at hpc ⊢
      cases hw : E.writeFile sti.fs (outDir ++ lit "/" ++ OutputFilename r) (pi ++ lit "\n") with
      | error err =>
        rw [hw] at hpc
        simp at hpc
      | ok fs2 => rfl
    · intro hex
      exact processChunk_duplicate E outDir i pi sti r hri ((hcreated _).mpr hex)

theorem C1_later_duplicate_skipped_witness :
    processChunk exampleEnv (lit ".") 1 podFooBar
        ⟨[lit "Pod__foo__bar.yaml"], [(lit "./Pod__foo__bar.yaml", podFooBar ++ lit "\n")]⟩ =
      ([Event.logSkipDuplicate (lit "foo") (lit "Pod") (lit "bar")],
       .ok ⟨[lit "Pod__foo__bar.yaml"],
            [(lit "./Pod__foo__bar.yaml", podFooBar ++ lit "\n")]⟩) :=
  (C1_later_duplicate_skipped exampleEnv (lit ".") [podFooBar, podFooBar] 0 1 podFooBar
    podFooBar ⟨lit "Pod", lit "foo", lit "bar"⟩ []
    [Event.logWriting (lit "Pod__foo__bar.yaml"),
      Event.wrote (lit "./Pod__foo__bar.yaml") (podFooBar ++ lit "\n")]
    ⟨[lit "Pod__foo__bar.yaml"], [(lit "./Pod__foo__bar.yaml", podFooBar ++ lit "\n")]⟩
    (by decide) (by rfl) (by rfl) (by rfl) (by rfl)).1

/-- C5: the files written by a run that comes through all chunks are, in
document order, one file for each non-blank chunk whose OutputFilename did not
occur at an earlier chunk, named kind, two underscores, name, two underscores,
namespace and `.yaml` in the output directory, and holding the bytes of the
chunk followed by one line feed; a blank chunk (no top-level key) writes
nothing and leaves the state as it is. -/
theorem C5_files_written_by_completed_run {σ : Type} (E : Env σ) (goos outDir d : Bytes)
    (fs : σ) (evs : List Event) (st : State σ)
    (hrun : Run E goos outDir d fs = (evs, .ok st)) :
    filesWritten evs = expectedFiles E outDir (chunks goos d) ∧
    (∀ (i : Nat) (p : Bytes) (s : State σ), E.unmarshal p = .ok [] →
        processChunk E outDir i p s = ([], .ok s)) := by
  refine ⟨?_, ?_⟩
  · unfold Run at hrun
    simp only [Prod.mk.injEq] at hrun
    obtain ⟨hev, hres⟩ := hrun
    have hl : loop E outDir 0 (chunks goos d) ⟨[], fs⟩ =
        ((loop E outDir 0 (chunks goos d) ⟨[], fs⟩).1, .ok st) := Prod.ext rfl hres
    rw [← hev]
    show filesWritten (loop E outDir 0 (chunks goos d) ⟨[], fs⟩).1 = _
    exact loop_files_expected E outDir (chunks goos d) [] 0 ⟨[], fs⟩ st _ (by simp) hl
  · intro i p s h
    apply processChunk_blank E outDir i p s
    unfold identify
    simp [h]

theorem C5_files_written_by_completed_run_witness :
    Run exampleEnv (lit "linux") (lit ".") podFooBar [] =
      ([Event.logChunks 1, Event.logWriting (lit "Pod__foo__bar.yaml"),
        Event.wrote (lit "./Pod__foo__bar.yaml") (podFooBar ++ lit "\n")],
       .ok ⟨[lit "Pod__foo__bar.yaml"],
            [(lit "./Pod__foo__bar.yaml", podFooBar ++ lit "\n")]⟩) ∧
    filesWritten
        [Event.logChunks 1, Event.logWriting (lit "Pod__foo__bar.yaml"),
         Event.wrote (lit "./Pod__foo__bar.yaml") (podFooBar ++ lit "\n")] =
      expectedFiles exampleEnv (lit ".") (chunks (lit "linux") podFooBar) ∧
    expectedFiles exampleEnv (lit ".") (chunks (lit "linux") podFooBar) =
      [(lit "./Pod__foo__bar.yaml", podFooBar ++ lit "\n")] :=
  ⟨by rfl,
   (C5_files_written_by_completed_run exampleEnv (lit "linux") (lit ".") podFooBar []
      [Event.logChunks 1, Event.logWriting (lit "Pod__foo__bar.yaml"),
       Event.wrote (lit "./Pod__foo__bar.yaml") (podFooBar ++ lit "\n")]
      ⟨[lit "Pod__foo__bar.yaml"], [(lit "./Pod__foo__bar.yaml", podFooBar ++ lit "\n")]⟩
      (by rfl)).1,
   by decide⟩

end K8split
